import Mathlib

/-!
Verification of the wbspert chart-generation engine.

Strings are modelled as `List Char`.  Go's `strings.ToLower` is modelled by
ASCII case folding (`Char.toLower`), which agrees with Go on the ASCII status
and tag strings this program manipulates.  Go's `float32` task duration is
modelled as a natural number; `strconv.FormatFloat(d, 'f', 2, 32)` is modelled
for whole-number durations as the decimal numeral followed by ".00".
-/

/-- Convert a string literal to the `List Char` representation used throughout. -/
def lc (s : String) : List Char := s.toList

/-- ASCII case folding, modelling Go `strings.ToLower` on ASCII input. -/
def lowerStr (s : List Char) : List Char := s.map Char.toLower

/-- Go `strings.Split(s, sep)` for a single-character separator:
splitting the empty string yields `[[]]`, separators are not kept,
empty fields are preserved. -/
def splitChar (sep : Char) : List Char → List (List Char)
  | [] => [[]]
  | c :: cs =>
    if c = sep then [] :: splitChar sep cs
    else
      match splitChar sep cs with
      | [] => [[c]]
      | t :: ts => (c :: t) :: ts

/-- Go `strings.Trim(s, cutset)` for the single-character cutset: remove all
leading and trailing occurrences of `cut`. -/
def trimChar (cut : Char) (l : List Char) : List Char :=
  ((l.dropWhile (fun c => c = cut)).reverse.dropWhile (fun c => c = cut)).reverse

/-- Go `inArray` from main.go: linear membership test by string equality. -/
def inArray (fld : List Char) (arr : List (List Char)) : Bool :=
  arr.any (fun key => fld == key)

/-- Task record, from the `Sheet` struct in main.go (columns Task, Title,
Parents, Duration, Status). -/
structure Sheet where
  WBS : List Char
  Title : List Char
  Parents : List Char
  Duration : Nat
  Status : List Char

namespace Sheet

/-- `GetParents` (main.go:88-94): split the raw parent string on commas and
trim a space-character cutset from each element. -/
def GetParents (s : Sheet) : List (List Char) :=
  (splitChar ',' s.Parents).map (trimChar ' ')

/-- `GetStatusColor` (main.go:96-115): switch on the lowercased status. -/
def GetStatusColor (s : Sheet) : List Char :=
  let st := lowerStr s.Status
  if st = lc "in progress" then lc "#DarkSeaGreen"
  else if st = lc "complete" ∨ st = lc "done" then lc "#Thistle"
  else if st = lc "blocked" ∨ st = lc "stalled" then lc "#Red"
  else if st = lc "waiting" then lc "#Pink"
  else if st = lc "milestone" then lc "#Orange"
  else []

/-- `GetStatusColor` from the second revision (src/unnamed/part_002:113-134),
which additionally maps "under review" with "in progress". -/
def GetStatusColorP2 (s : Sheet) : List Char :=
  let st := lowerStr s.Status
  if st = lc "under review" ∨ st = lc "in progress" then lc "#DarkSeaGreen"
  else if st = lc "complete" ∨ st = lc "done" then lc "#Thistle"
  else if st = lc "blocked" ∨ st = lc "stalled" then lc "#Red"
  else if st = lc "waiting" then lc "#Pink"
  else if st = lc "milestone" then lc "#Orange"
  else []

/-- `IsCompleted` (main.go:117-123): the lowercased status equals "done" or
starts with "complete". -/
def IsCompleted (s : Sheet) : Bool :=
  let status := lowerStr s.Status
  status == lc "done" || (lc "complete").isPrefixOf status

/-- `GetLevel` (main.go:144-146): number of '.' in the task id, plus one. -/
def GetLevel (s : Sheet) : Nat :=
  s.WBS.count '.' + 1

/-- `GetWBSLevel` (main.go:153-168): the PlantUML WBS outline line for a task. -/
def GetWBSLevel (s : Sheet) (lvl : Int) : List Char :=
  let printlvl := if s.GetLevel = 1 then 2 else s.GetLevel
  let str1 := List.replicate printlvl '*'
  let color := s.GetStatusColor
  let str2 := if 0 < color.length then str1 ++ '[' :: (color ++ [']']) else str1
  let str3 := if (s.GetLevel : Int) > lvl ∧ lvl > 0 then str2 ++ ['_'] else str2
  str3 ++ ' ' :: (s.WBS ++ ':' :: ' ' :: s.Title)

/-- Model of `strconv.FormatFloat(float64(d), 'f', 2, 32)` for the
whole-number durations modelled here. -/
def fmtDuration (n : Nat) : List Char := lc (Nat.repr n) ++ lc ".00"

/-- `MarkdownRow` (main.go:171-177): pipe-delimited table row; the title is
struck through exactly when the lowercased status is "done" or "complete". -/
def MarkdownRow (s : Sheet) : List Char :=
  let title :=
    if lowerStr s.Status = lc "done" ∨ lowerStr s.Status = lc "complete" then
      lc "~~" ++ s.Title ++ lc "~~"
    else s.Title
  lc "| " ++ s.WBS ++ lc " | " ++ s.Status ++ lc " | " ++ title ++ lc " | " ++
    s.Parents ++ lc " | " ++ fmtDuration s.Duration ++ lc " |"

end Sheet

/-! ## PertChart dependency-graph builder (main.go:283-328) -/

/-- One `" --> "` edge line, `fmt.Sprintf("%s --> %s\n", p, wbs)`. -/
def edgeStr (p wbs : List Char) : List Char := p ++ lc " --> " ++ wbs ++ ['\n']

/-- The edge lines a single included task contributes: one per parsed parent
reference, the empty reference replaced by "Start". -/
def Sheet.edgesOf (s : Sheet) : List (List Char) :=
  s.GetParents.map (fun p => edgeStr (if p = [] then lc "Start" else p) s.WBS)

/-- Whether the PertChart loop skips the task entirely: reserved "0.99"
sentinel prefix, or the active-only completion filter. -/
def pertSkip (activeOnly : Bool) (s : Sheet) : Bool :=
  (lc "0.99").isPrefixOf s.WBS || (activeOnly && s.IsCompleted)

/-- A task included in the PertChart graph: not skipped, and at least the
configured level. -/
def pertIncl (activeOnly : Bool) (level : Int) (s : Sheet) : Bool :=
  !pertSkip activeOnly s && level ≤ (s.GetLevel : Int)

/-- One iteration of the PertChart loop body, accumulating
`(tasks, allParents, edges)` exactly as main.go appends to them. -/
def pertStep (activeOnly : Bool) (level : Int)
    (acc : List (List Char) × List (List Char) × List (List Char)) (s : Sheet) :
    List (List Char) × List (List Char) × List (List Char) :=
  if pertSkip activeOnly s then acc
  else if level ≤ (s.GetLevel : Int) then
    (acc.1 ++ [s.WBS], acc.2.1 ++ s.GetParents, acc.2.2 ++ s.edgesOf)
  else acc

/-- The `tasks`, `allParents` and `edges` accumulators after the PertChart
loop over all sheets. -/
def pertAcc (activeOnly : Bool) (level : Int) (sheets : List Sheet) :
    List (List Char) × List (List Char) × List (List Char) :=
  sheets.foldl (pertStep activeOnly level) ([], [], [])

/-- The task ids recorded by the PertChart loop. -/
def pertTasks (activeOnly : Bool) (level : Int) (sheets : List Sheet) : List (List Char) :=
  (pertAcc activeOnly level sheets).1

/-- The accumulated parent-reference multiset of the PertChart loop. -/
def pertAllParents (activeOnly : Bool) (level : Int) (sheets : List Sheet) : List (List Char) :=
  (pertAcc activeOnly level sheets).2.1

/-- The parent→child edge lines of the PertChart, in discovery order. -/
def pertEdges (activeOnly : Bool) (level : Int) (sheets : List Sheet) : List (List Char) :=
  (pertAcc activeOnly level sheets).2.2

/-- The trailing `task --> Finish` lines: every recorded task id that never
occurs among the accumulated parent references, in input order. -/
def pertFinishEdges (activeOnly : Bool) (level : Int) (sheets : List Sheet) : List (List Char) :=
  ((pertTasks activeOnly level sheets).filter
      (fun task => !inArray task (pertAllParents activeOnly level sheets))).map
    (fun task => task ++ lc " --> Finish\n")

/-! ## WBS outline and Markdown table renderers (main.go:387-426) -/

/-- The per-task outline lines emitted by `WBS` (main.go:387-408): one
`GetWBSLevel` line per task not excluded by the active-only filter. -/
def wbsLines (activeOnly : Bool) (level : Int) (sheets : List Sheet) : List (List Char) :=
  sheets.foldl
    (fun acc s => if activeOnly && s.IsCompleted then acc else acc ++ [s.GetWBSLevel level]) []

/-- The per-task rows emitted by `WBSTable` (main.go:410-426): one
`MarkdownRow` per task not excluded by the active-only filter. -/
def wbsTableRows (activeOnly : Bool) (sheets : List Sheet) : List (List Char) :=
  sheets.foldl
    (fun acc s => if activeOnly && s.IsCompleted then acc else acc ++ [s.MarkdownRow]) []

/-! ## Kanban board pivot (src/unnamed/part_002:363-435) -/

/-- Board card, the shape consumed from the external `ghprojects/projects`
package: title, status, label set, and an open field mapping (modelled as an
association list; a missing key reads as the empty string, as a Go map does). -/
structure Card where
  Title : List Char
  Status : List Char
  Labels : List (List Char)
  Fields : List (List Char × List Char)

/-- Go map read `card.Fields[k]`: the associated value, or "" when absent. -/
def fieldGet (fields : List (List Char × List Char)) (k : List Char) : List Char :=
  match fields.find? (fun kv => kv.1 == k) with
  | some kv => kv.2
  | none => []

/-- Modelled from the spec: `Card.IsCompleted` lives in the external
`ghprojects/projects` package, not under src/.  Per §4.2 the completion
predicate is the one used everywhere: the lowercased status equals "done" or
starts with "complete". -/
def Card.IsCompleted (c : Card) : Bool :=
  let status := lowerStr c.Status
  status == lc "done" || (lc "complete").isPrefixOf status

/-- Board column: a name and an ordered card list. -/
structure BoardColumn where
  Name : List Char
  Cards : List Card

/-- `FilterCards` (part_002:363-375): keep, per column, the cards whose label
set contains the filter or whose "Type" field equals it, preserving order. -/
def FilterCards (columns : List BoardColumn) (filter : List Char) : List BoardColumn :=
  columns.map (fun col =>
    { col with Cards :=
        col.Cards.filter (fun card =>
          inArray filter card.Labels || fieldGet card.Fields (lc "Type") == filter) })

/-- `determineRows` (part_002:427-435): running maximum of the column card
counts, starting from zero. -/
def determineRows (cols : List BoardColumn) : Nat :=
  cols.foldl (fun maxRows col =>
    if col.Cards.length > maxRows then col.Cards.length else maxRows) 0

/-- The cell text written for a card: struck-through title when completed
(the active-only case never reaches the write). -/
def cellText (card : Card) : List Char :=
  let complete := if card.IsCompleted then lc "~~" else []
  complete ++ card.Title ++ complete

/-- Write value `v` at row `i`, column `j` of the grid. -/
def setCell (rows : List (List (List Char))) (i j : Nat) (v : List Char) :
    List (List (List Char)) :=
  rows.set i ((rows.getD i []).set j v)

/-- Read the cell at row `i`, column `j` of the grid (an absent cell reads ""). -/
def cell (rows : List (List (List Char))) (i j : Nat) : List Char :=
  (rows.getD i []).getD j []

/-- The inner Kanban loop for one column: for each card index, either skip
(completed under active-only) or write the cell at the card's index. -/
def fillCol (activeOnly : Bool) (j : Nat) (cards : List (Nat × Card))
    (rows : List (List (List Char))) : List (List (List Char)) :=
  cards.foldl (fun rows ic =>
    if ic.2.IsCompleted && activeOnly then rows
    else setCell rows ic.1 j (cellText ic.2)) rows

/-- The outer Kanban loop: fill every column of the grid. -/
def fillAll (activeOnly : Bool) (cols : List (Nat × BoardColumn))
    (rows : List (List (List Char))) : List (List (List Char)) :=
  cols.foldl (fun rows jc => fillCol activeOnly jc.1 jc.2.Cards.enum rows) rows

/-- The columns the Kanban pivot actually tabulates: the board's columns,
run through `FilterCards` when a filter is configured (part_002:383-385). -/
def kanbanCols (filter : List Char) (cols : List BoardColumn) : List BoardColumn :=
  if 0 < filter.length then FilterCards cols filter else cols

/-- `Kanban` (part_002:376-425), the grid part: allocate
`determineRows × #columns` empty cells, then run the fill loops. -/
def kanbanGrid (activeOnly : Bool) (filter : List Char) (cols0 : List BoardColumn) :
    List (List (List Char)) :=
  let cols := kanbanCols filter cols0
  let maxRows := determineRows cols
  fillAll activeOnly cols.enum (List.replicate maxRows (List.replicate cols.length []))

/-! ## Region merge: `embedContents` (main.go:428-456)

The embed pattern compiled at main.go:74-77 is, for a tag `t`,

  `(?m:^ *)<!--\s*t:embed:start\s*-->(?s:.*?)<!--\s*t:embed:end\s*-->(?m:\s*?$)`

with Go (RE2) leftmost-first semantics.  Every quantifier in the pattern is
determinate for the alphanumeric tags used (a greedy run of spaces or of
whitespace followed by a literal whose first character is not of that class
admits exactly one split; the lazy body takes the first end-marker position at
which the rest of the pattern succeeds; the lazy trailing `\s*?$` consumes the
minimal, hence newline-free, whitespace run reaching a line end), so matching
is modelled by the direct scanner below.
-/

/-- Go regexp `\s`: the Perl whitespace class `[\t\n\f\r ]`. -/
def goWs (c : Char) : Bool :=
  c = ' ' || c = '\t' || c = '\n' || c = '\x0c' || c = '\r'

/-- Match a literal at the head of the input, returning the remainder. -/
def expectLit (lit s : List Char) : Option (List Char) :=
  if lit.isPrefixOf s then some (s.drop lit.length) else none

/-- The end-marker pattern `<!--\s*t:embed:end\s*-->`, anchored at the head:
returns the remainder after the closing `-->`. -/
def endPat (tag s : List Char) : Option (List Char) :=
  (expectLit (lc "<!--") s).bind fun s1 =>
  (expectLit (tag ++ lc ":embed:end") (s1.dropWhile goWs)).bind fun s2 =>
  expectLit (lc "-->") (s2.dropWhile goWs)

/-- The trailing `(?m:\s*?$)`: lazily consume whitespace up to the first
position that is the end of text or is followed by a newline; fail if a
non-whitespace character intervenes. -/
def lazyWsEol : List Char → Option (List Char)
  | [] => some []
  | c :: cs =>
    if c = '\n' then some (c :: cs)
    else if goWs c then lazyWsEol cs
    else none

/-- The lazy body `(?s:.*?)` followed by the end marker and the trailing
whitespace assertion: take the first end-marker position at which the trailing
assertion also succeeds, and return the remainder after the whole tail. -/
def findEnd (tag : List Char) : List Char → Option (List Char)
  | [] => (endPat tag []).bind lazyWsEol
  | c :: cs =>
    match (endPat tag (c :: cs)).bind lazyWsEol with
    | some r => some r
    | none => findEnd tag cs

/-- One anchored match attempt at a line start: `^ *` then the start marker,
then the lazy body through the end marker and trailing assertion.  Returns the
remainder of the input after the whole match. -/
def tryAt (tag s : List Char) : Option (List Char) :=
  (expectLit (lc "<!--") (s.dropWhile (fun c => c = ' '))).bind fun s1 =>
  (expectLit (tag ++ lc ":embed:start") (s1.dropWhile goWs)).bind fun s2 =>
  (expectLit (lc "-->") (s2.dropWhile goWs)).bind fun s3 =>
  findEnd tag s3

/-- Leftmost match: walk the input, attempting `tryAt` at every line start
(`atLS` tracks whether the current position follows a newline or is the start
of text).  Returns the text before the match and the remainder after it. -/
def findMatch (tag : List Char) : Bool → List Char → Option (List Char × List Char)
  | atLS, [] =>
    match if atLS then tryAt tag [] else none with
    | some rest => some ([], rest)
    | none => none
  | atLS, c :: cs =>
    match if atLS then tryAt tag (c :: cs) else none with
    | some rest => some ([], rest)
    | none => (findMatch tag (c = '\n') cs).map (fun pr => (c :: pr.1, pr.2))

/-- `re.ReplaceAllFunc` with a constant replacement, counting replacements:
repeatedly take the leftmost match and substitute `repl`.  Scanning resumes
after the matched text, which never ends in a newline, so the resumed position
is not a line start.  The fuel only bounds the recursion; each match consumes
at least the four characters `<!--`, so `length s + 1` is always enough. -/
def replaceAllAux (tag repl : List Char) : Nat → Bool → List Char → List Char × Nat
  | 0, _, s => (s, 0)
  | Nat.succ n, atLS, s =>
    match findMatch tag atLS s with
    | none => (s, 0)
    | some (pre, rest) =>
      let (res, k) := replaceAllAux tag repl n false rest
      (pre ++ repl ++ res, k + 1)

/-- The replacement block `embedText` built at main.go:429. -/
def embedText (tag text : List Char) : List Char :=
  lc "<!-- " ++ tag ++ lc ":embed:start -->\n\n" ++ text ++ lc "\n<!-- " ++
    tag ++ lc ":embed:end -->\n"

/-- The number of matches `ReplaceAllFunc` replaces in `data`. -/
def countMatches (tag text data : List Char) : Nat :=
  (replaceAllAux tag (embedText tag text) (data.length + 1) true data).2

/-- `embedContents` (main.go:428-456), as a function of the document bytes:
replace every match of the tag's pattern with the new tagged block, or append
the block after a blank line when there is no match. -/
def embedContents (tag text data : List Char) : List Char :=
  let et := embedText tag text
  let p := replaceAllAux tag et (data.length + 1) true data
  if p.2 = 0 then data ++ lc "\n\n" ++ et else p.1

/-! ## Parent parsing (C6) -/

/-- Modelled from the spec's words for comparison: "split on commas, trim
surrounding whitespace from each element" — trimming the full whitespace
class rather than the space character. -/
def trimWsSpec (l : List Char) : List Char :=
  ((l.dropWhile Char.isWhitespace).reverse.dropWhile Char.isWhitespace).reverse

/-- Parent parsing as the spec words it: split on commas, whitespace-trim. -/
def parseParentsSpec (raw : List Char) : List (List Char) :=
  (splitChar ',' raw).map trimWsSpec

/-- A sheet carrying only a raw parent string. -/
def sheetP (p : List Char) : Sheet := ⟨[], [], p, 0, []⟩

theorem splitChar_ne_nil (sep : Char) (l : List Char) : splitChar sep l ≠ [] := by
  cases l with
  | nil => simp [splitChar]
  | cons c cs =>
    by_cases h : c = sep
    · simp [splitChar, h]
    · simp only [splitChar, if_neg h]
      cases hs : splitChar sep cs <;> simp

theorem splitChar_length (sep : Char) (l : List Char) :
    (splitChar sep l).length = l.count sep + 1 := by
  induction l with
  | nil => simp [splitChar]
  | cons c cs ih =>
    by_cases h : c = sep
    · simp [splitChar, h, List.count_cons, ih]
    · obtain ⟨t, ts, hts⟩ : ∃ t ts, splitChar sep cs = t :: ts := by
        cases hs : splitChar sep cs with
        | nil => exact absurd hs (splitChar_ne_nil sep cs)
        | cons t ts => exact ⟨t, ts, rfl⟩
      have hlen := ih
      rw [hts] at hlen
      simp only [splitChar, if_neg h, hts, List.count_cons, List.length_cons] at *
      have hbeq : (c == sep) = false := by simpa using h
      simp [hbeq]
      omega

/-- C6 counterexample: `GetParents` trims only the space character, not all
surrounding whitespace.  On the raw string "a,\tb" the code keeps the leading
tab of the second element, while the claimed whitespace-trimming drops it. -/
theorem getParents_whitespace_counterexample :
    (sheetP (lc "a,\tb")).GetParents ≠ parseParentsSpec (lc "a,\tb") ∧
    (sheetP (lc "a,\tb")).GetParents = [lc "a", '\t' :: lc "b"] ∧
    parseParentsSpec (lc "a,\tb") = [lc "a", lc "b"] := by
  refine ⟨by decide, by decide, by decide⟩

/-- C6 amended: `GetParents` splits the raw parent string on commas and trims
surrounding space characters (only U+0020, not all whitespace) from each
element, preserving order and empty elements without deduplication; the
claim's concrete examples all hold. -/
theorem getParents_amended :
    (∀ s : Sheet, s.GetParents = (splitChar ',' s.Parents).map (trimChar ' ')) ∧
    (∀ s : Sheet, s.GetParents.length = s.Parents.count ',' + 1) ∧
    (sheetP (lc "2.1.1, 3.1.1")).GetParents = [lc "2.1.1", lc "3.1.1"] ∧
    (sheetP (lc "2.1.1,3.1.1")).GetParents = [lc "2.1.1", lc "3.1.1"] ∧
    (sheetP []).GetParents = [[]] := by
  refine ⟨fun s => rfl, fun s => ?_, by decide, by decide, by decide⟩
  simp [Sheet.GetParents, splitChar_length]

/-! ## Outline indentation (C8) -/

theorem takeWhile_replicate_append (c : Char) (n : Nat) (rest : List Char)
    (h : rest.takeWhile (fun x => x = c) = []) :
    (List.replicate n c ++ rest).takeWhile (fun x => x = c) = List.replicate n c := by
  induction n with
  | zero => simpa using h
  | succ n ih => simp [List.replicate_succ, List.takeWhile_cons, ih]

/-- C8: every `GetWBSLevel` line begins with a run of `'*'` markers of length
`Depth(task)` — except depth-1 tasks, which render two markers — and a
depth-2 task with empty status renders exactly two markers with no color tag
and no collapse suffix. -/
theorem getWBSLevel_markers :
    (∀ (s : Sheet) (lvl : Int),
      (s.GetWBSLevel lvl).takeWhile (fun x => x = '*') =
        List.replicate (if s.GetLevel = 1 then 2 else s.GetLevel) '*') ∧
    (∀ s : Sheet, s.GetLevel = s.WBS.count '.' + 1) ∧
    (∀ (s : Sheet) (lvl : Int), s.GetLevel = 2 → s.Status = [] →
      lvl = 0 ∨ 2 ≤ lvl →
      s.GetWBSLevel lvl = lc "** " ++ s.WBS ++ lc ": " ++ s.Title) := by
  refine ⟨fun s lvl => ?_, fun s => rfl, fun s lvl h2 hst hlvl => ?_⟩
  · by_cases h1 : 0 < s.GetStatusColor.length <;>
      by_cases hcol : ((s.GetLevel : Int) > lvl ∧ lvl > 0)
    · simp only [Sheet.GetWBSLevel, if_pos h1, if_pos hcol, List.append_assoc,
        List.cons_append]
      apply takeWhile_replicate_append
      rw [List.takeWhile_cons, if_neg (by decide)]
    · simp only [Sheet.GetWBSLevel, if_pos h1, if_neg hcol, List.append_assoc,
        List.cons_append]
      apply takeWhile_replicate_append
      rw [List.takeWhile_cons, if_neg (by decide)]
    · simp only [Sheet.GetWBSLevel, if_neg h1, if_pos hcol, List.append_assoc,
        List.cons_append]
      apply takeWhile_replicate_append
      rw [List.takeWhile_cons, if_neg (by decide)]
    · simp only [Sheet.GetWBSLevel, if_neg h1, if_neg hcol, List.append_assoc,
        List.cons_append]
      apply takeWhile_replicate_append
      rw [List.takeWhile_cons, if_neg (by decide)]
  · have hcolor : s.GetStatusColor = [] := by
      simp only [Sheet.GetStatusColor, lowerStr, hst, List.map_nil]
      rw [if_neg (by decide), if_neg (by decide), if_neg (by decide),
        if_neg (by decide), if_neg (by decide)]
    have hnocol : ¬((((2 : Nat) : Int)) > lvl ∧ lvl > 0) := by
      intro hc
      rcases hlvl with h | h <;> omega
    have e1 : lc "** " = ['*', '*', ' '] := rfl
    have e2 : lc ": " = [':', ' '] := rfl
    simp only [Sheet.GetWBSLevel, h2, hcolor, List.length_nil, lt_self_iff_false,
      if_false]
    rw [if_neg (show ¬((2 : Nat) = 1) by decide), if_neg hnocol]
    simp [e1, e2]

theorem getWBSLevel_markers_witness :
    (⟨lc "1.1", lc "Test", [], 4, []⟩ : Sheet).GetWBSLevel 3 = lc "** 1.1: Test" := by
  have h := getWBSLevel_markers.2.2 (⟨lc "1.1", lc "Test", [], 4, []⟩ : Sheet) 3
    (by decide) rfl (Or.inr (by decide))
  rw [h]
  decide

/-! ## Status-to-color mapping (C9) -/

/-- The status→color table as the spec words it (§4.2), for comparison with
the two source revisions: "in progress"/"under review" → DarkSeaGreen,
"complete"/"done" → Thistle, "blocked"/"stalled" → Red, "waiting" → Pink,
"milestone" → Orange, anything else → no color. -/
def colorTableSpec (status : List Char) : List Char :=
  let st := lowerStr status
  if st = lc "in progress" ∨ st = lc "under review" then lc "#DarkSeaGreen"
  else if st = lc "complete" ∨ st = lc "done" then lc "#Thistle"
  else if st = lc "blocked" ∨ st = lc "stalled" then lc "#Red"
  else if st = lc "waiting" then lc "#Pink"
  else if st = lc "milestone" then lc "#Orange"
  else []

/-- C9 counterexample: the main.go revision of `GetStatusColor` has no
"under review" case, so it maps that status to the empty string rather than
to "#DarkSeaGreen"; only the part_002 revision maps it as claimed. -/
theorem getStatusColor_underReview_counterexample :
    (⟨[], [], [], 0, lc "Under Review"⟩ : Sheet).GetStatusColor ≠ lc "#DarkSeaGreen" ∧
    (⟨[], [], [], 0, lc "Under Review"⟩ : Sheet).GetStatusColor = [] ∧
    (⟨[], [], [], 0, lc "Under Review"⟩ : Sheet).GetStatusColorP2 = lc "#DarkSeaGreen" := by
  refine ⟨by decide, by decide, by decide⟩

/-- C9 amended: the part_002 revision of `GetStatusColor` realises exactly the
claimed case-insensitive table; the main.go revision agrees with it on every
status except "under review", which it leaves unmatched (empty color). -/
theorem getStatusColor_amended : ∀ s : Sheet,
    s.GetStatusColorP2 = colorTableSpec s.Status ∧
    s.GetStatusColor =
      (if lowerStr s.Status = lc "under review" then [] else colorTableSpec s.Status) := by
  intro s
  constructor
  · simp only [Sheet.GetStatusColorP2, colorTableSpec]
    split_ifs <;> first | rfl | tauto
  · simp only [Sheet.GetStatusColor, colorTableSpec]
    split_ifs <;> first | rfl | tauto | simp_all [lc]

/-! ## Table strike-through (C10) -/

/-- C10: `MarkdownRow` strikes the title through exactly when the lowercased
status is the full word "done" or "complete"; the status "Completed" is
classified completed by `IsCompleted` (prefix match) yet renders without
strike-through. -/
theorem markdownRow_strike :
    (∀ s : Sheet,
      s.MarkdownRow = lc "| " ++ s.WBS ++ lc " | " ++ s.Status ++ lc " | " ++
        (if lowerStr s.Status = lc "done" ∨ lowerStr s.Status = lc "complete" then
          lc "~~" ++ s.Title ++ lc "~~"
        else s.Title) ++ lc " | " ++ s.Parents ++ lc " | " ++
        Sheet.fmtDuration s.Duration ++ lc " |") ∧
    (∀ s : Sheet, (lowerStr s.Status = lc "done" ∨ lowerStr s.Status = lc "complete") →
      s.IsCompleted = true) ∧
    (⟨lc "1", lc "T", [], 4, lc "Completed"⟩ : Sheet).IsCompleted = true ∧
    (⟨lc "1", lc "T", [], 4, lc "Completed"⟩ : Sheet).MarkdownRow =
      lc "| 1 | Completed | T |  | 4.00 |" := by
  refine ⟨fun s => rfl, fun s h => ?_, by decide, by decide⟩
  simp only [Sheet.IsCompleted]
  rcases h with h | h <;> rw [h] <;> decide

theorem markdownRow_strike_witness :
    (⟨lc "1", lc "T", [], 4, lc "Done"⟩ : Sheet).IsCompleted = true :=
  markdownRow_strike.2.1 ⟨lc "1", lc "T", [], 4, lc "Done"⟩ (Or.inl (by decide))

/-! ## PertChart loop characterization (C2) -/

theorem foldl_pertStep (a : Bool) (l : Int) (sheets : List Sheet) :
    ∀ acc : List (List Char) × List (List Char) × List (List Char),
    sheets.foldl (pertStep a l) acc =
      (acc.1 ++ (sheets.filter (pertIncl a l)).map Sheet.WBS,
       acc.2.1 ++ (sheets.filter (pertIncl a l)).flatMap Sheet.GetParents,
       acc.2.2 ++ (sheets.filter (pertIncl a l)).flatMap Sheet.edgesOf) := by
  induction sheets with
  | nil => intro acc; simp
  | cons s ss ih =>
    intro acc
    rw [List.foldl_cons]
    by_cases hskip : pertSkip a s
    · have hincl : pertIncl a l s = false := by simp [pertIncl, hskip]
      rw [show pertStep a l acc s = acc from by simp [pertStep, hskip]]
      rw [ih acc]
      simp [List.filter_cons, hincl]
    · by_cases hlvl : l ≤ (s.GetLevel : Int)
      · have hincl : pertIncl a l s = true := by simp [pertIncl, hskip, hlvl]
        rw [show pertStep a l acc s =
            (acc.1 ++ [s.WBS], acc.2.1 ++ s.GetParents, acc.2.2 ++ s.edgesOf) from by
          simp [pertStep, hskip, hlvl]]
        rw [ih]
        simp [List.filter_cons, hincl, List.append_assoc]
      · have hincl : pertIncl a l s = false := by simp [pertIncl, hskip, hlvl]
        rw [show pertStep a l acc s = acc from by simp [pertStep, hskip, hlvl]]
        rw [ih acc]
        simp [List.filter_cons, hincl]

theorem pertAcc_characterization (a : Bool) (l : Int) (sheets : List Sheet) :
    pertAcc a l sheets =
      ((sheets.filter (pertIncl a l)).map Sheet.WBS,
       (sheets.filter (pertIncl a l)).flatMap Sheet.GetParents,
       (sheets.filter (pertIncl a l)).flatMap Sheet.edgesOf) := by
  rw [pertAcc, foldl_pertStep]
  simp

/-- C2: the PertChart emits, for every included task (not sentinel-skipped,
not active-only-skipped, and at depth at least the configured level) and every
parsed parent reference, the edge `Start --> id` for the empty reference and
`ref --> id` otherwise; afterwards every included task id that never occurs
among the accumulated parent references receives `id --> Finish`; a task whose
only parent reference is empty and on which nothing depends gets both. -/
theorem pertChart_edges (a : Bool) (l : Int) (sheets : List Sheet) :
    pertEdges a l sheets = (sheets.filter (pertIncl a l)).flatMap Sheet.edgesOf ∧
    pertTasks a l sheets = (sheets.filter (pertIncl a l)).map Sheet.WBS ∧
    pertAllParents a l sheets = (sheets.filter (pertIncl a l)).flatMap Sheet.GetParents ∧
    (∀ s ∈ sheets, pertIncl a l s = true → ∀ p ∈ s.GetParents,
      edgeStr (if p = [] then lc "Start" else p) s.WBS ∈ pertEdges a l sheets) ∧
    (∀ t ∈ pertTasks a l sheets, inArray t (pertAllParents a l sheets) = false →
      (t ++ lc " --> Finish\n") ∈ pertFinishEdges a l sheets) ∧
    (∀ s ∈ sheets, pertIncl a l s = true → s.GetParents = [[]] →
      inArray s.WBS (pertAllParents a l sheets) = false →
      edgeStr (lc "Start") s.WBS ∈ pertEdges a l sheets ∧
      (s.WBS ++ lc " --> Finish\n") ∈ pertFinishEdges a l sheets) := by
  have hchar := pertAcc_characterization a l sheets
  have he : pertEdges a l sheets = (sheets.filter (pertIncl a l)).flatMap Sheet.edgesOf := by
    rw [pertEdges, hchar]
  have ht : pertTasks a l sheets = (sheets.filter (pertIncl a l)).map Sheet.WBS := by
    rw [pertTasks, hchar]
  have hp : pertAllParents a l sheets =
      (sheets.filter (pertIncl a l)).flatMap Sheet.GetParents := by
    rw [pertAllParents, hchar]
  have hedge : ∀ s ∈ sheets, pertIncl a l s = true → ∀ p ∈ s.GetParents,
      edgeStr (if p = [] then lc "Start" else p) s.WBS ∈ pertEdges a l sheets := by
    intro s hs hincl p hpmem
    rw [he]
    rw [List.mem_flatMap]
    refine ⟨s, List.mem_filter.mpr ⟨hs, hincl⟩, ?_⟩
    exact List.mem_map_of_mem _ hpmem
  have hfin : ∀ t ∈ pertTasks a l sheets, inArray t (pertAllParents a l sheets) = false →
      (t ++ lc " --> Finish\n") ∈ pertFinishEdges a l sheets := by
    intro t htm hnot
    rw [pertFinishEdges]
    apply List.mem_map_of_mem
    exact List.mem_filter.mpr ⟨htm, by simp [hnot]⟩
  refine ⟨he, ht, hp, hedge, hfin, ?_⟩
  intro s hs hincl hpar hnot
  constructor
  · have := hedge s hs hincl [] (by rw [hpar]; exact List.mem_singleton.mpr rfl)
    simpa using this
  · apply hfin
    · rw [ht]
      exact List.mem_map_of_mem _ (List.mem_filter.mpr ⟨hs, hincl⟩)
    · exact hnot

theorem pertChart_edges_witness :
    edgeStr (lc "Start") (lc "A") ∈ pertEdges false 1 [⟨lc "A", lc "T", [], 0, []⟩] ∧
    (lc "A" ++ lc " --> Finish\n") ∈ pertFinishEdges false 1 [⟨lc "A", lc "T", [], 0, []⟩] :=
  (pertChart_edges false 1 [⟨lc "A", lc "T", [], 0, []⟩]).2.2.2.2.2
    ⟨lc "A", lc "T", [], 0, []⟩ (by simp) (by decide) (by decide) (by decide)

/-! ## Active-only completion filter (C7) -/

theorem foldl_skipCompleted (a : Bool) (f : Sheet → List Char) (sheets : List Sheet) :
    ∀ acc : List (List Char),
    sheets.foldl (fun acc s => if a && s.IsCompleted then acc else acc ++ [f s]) acc =
      acc ++ (sheets.filter (fun s => !(a && s.IsCompleted))).map f := by
  induction sheets with
  | nil => intro acc; simp
  | cons s ss ih =>
    intro acc
    rw [List.foldl_cons]
    by_cases h : a && s.IsCompleted
    · rw [if_pos h, ih]
      have hc : (!(a && s.IsCompleted)) = false := by rw [h]; rfl
      rw [List.filter_cons]
      simp [hc]
    · have hb : (a && s.IsCompleted) = false := by simpa using h
      rw [if_neg h, ih]
      have hc : (!(a && s.IsCompleted)) = true := by rw [hb]; rfl
      rw [List.filter_cons]
      simp [hc]

theorem pertIncl_activeOnly (l : Int) (s : Sheet) :
    pertIncl true l s = (pertIncl false l s && !s.IsCompleted) := by
  simp only [pertIncl, pertSkip]
  cases hc : s.IsCompleted <;> cases hp : (lc "0.99").isPrefixOf s.WBS <;> simp

/-- C7: `IsCompleted` holds exactly when the lowercased status equals "done"
or starts with "complete", and with the active-only option set each of the
three renderers — outline, dependency graph, table — excludes exactly the
tasks satisfying this same predicate. -/
theorem activeOnly_filter :
    (∀ s : Sheet, s.IsCompleted =
      (lowerStr s.Status == lc "done" || (lc "complete").isPrefixOf (lowerStr s.Status))) ∧
    (∀ (l : Int) (sheets : List Sheet),
      wbsLines true l sheets = wbsLines false l (sheets.filter (fun s => !s.IsCompleted))) ∧
    (∀ sheets : List Sheet,
      wbsTableRows true sheets = wbsTableRows false (sheets.filter (fun s => !s.IsCompleted))) ∧
    (∀ (l : Int) (sheets : List Sheet),
      pertAcc true l sheets = pertAcc false l (sheets.filter (fun s => !s.IsCompleted))) := by
  have h1 : ∀ (sheets : List Sheet),
      sheets.filter (fun s => !(true && s.IsCompleted)) =
        sheets.filter (fun s => !s.IsCompleted) :=
    fun sheets => List.filter_congr (fun x _ => by cases x.IsCompleted <;> rfl)
  have h2 : ∀ (sheets : List Sheet),
      (sheets.filter (fun s => !s.IsCompleted)).filter (fun s => !(false && s.IsCompleted)) =
        sheets.filter (fun s => !s.IsCompleted) := by
    intro sheets
    rw [List.filter_filter]
    exact List.filter_congr (fun x _ => by cases x.IsCompleted <;> rfl)
  refine ⟨fun s => rfl, fun l sheets => ?_, fun sheets => ?_, fun l sheets => ?_⟩
  · rw [wbsLines, wbsLines, foldl_skipCompleted, foldl_skipCompleted, h1, h2]
  · rw [wbsTableRows, wbsTableRows, foldl_skipCompleted, foldl_skipCompleted, h1, h2]
  · have h3 : sheets.filter (pertIncl true l) =
        (sheets.filter (fun s => !s.IsCompleted)).filter (pertIncl false l) :=
      (List.filter_congr (fun x _ => pertIncl_activeOnly l x)).trans
        (List.filter_filter _ _).symm
    rw [pertAcc_characterization, pertAcc_characterization, h3]

/-! ## Region merge: append case (C4) -/

/-- C4: when the existing content has no match of the tag's pattern,
`embedContents` appends the new tagged block after a blank line and leaves
every byte before it unchanged. -/
theorem embedContents_append (tag text data : List Char)
    (h : countMatches tag text data = 0) :
    embedContents tag text data = data ++ lc "\n\n" ++ embedText tag text ∧
    (embedContents tag text data).take data.length = data := by
  have heq : embedContents tag text data = data ++ lc "\n\n" ++ embedText tag text := by
    show (if (replaceAllAux tag (embedText tag text) (data.length + 1) true data).2 = 0 then
        data ++ lc "\n\n" ++ embedText tag text
      else (replaceAllAux tag (embedText tag text) (data.length + 1) true data).1) =
      data ++ lc "\n\n" ++ embedText tag text
    rw [if_pos (show (replaceAllAux tag (embedText tag text)
      (data.length + 1) true data).2 = 0 from h)]
  refine ⟨heq, ?_⟩
  rw [heq, List.append_assoc, List.take_left]

theorem embedContents_append_witness :
    countMatches (lc "wbs") (lc "X") (lc "hello") = 0 ∧
    embedContents (lc "wbs") (lc "X") (lc "hello") =
      lc "hello" ++ lc "\n\n" ++ embedText (lc "wbs") (lc "X") :=
  ⟨by decide, (embedContents_append (lc "wbs") (lc "X") (lc "hello") (by decide)).1⟩

/-! ## Region merge: postcondition (C3) -/

/-- Number of (possibly overlapping) occurrences of `pat` in a string. -/
def countOcc (pat : List Char) : List Char → Nat
  | [] => if pat.isPrefixOf ([] : List Char) then 1 else 0
  | c :: cs => (if pat.isPrefixOf (c :: cs) then 1 else 0) + countOcc pat cs

/-- A document holding two complete marker pairs for the same tag. -/
def twoRegionDoc : List Char :=
  lc "<!-- wbs:embed:start -->\nA\n<!-- wbs:embed:end -->\nmiddle\n<!-- wbs:embed:start -->\nB\n<!-- wbs:embed:end -->\n"

/-- C3 counterexample: on an input with two marker pairs, `embedContents`
replaces both matches, so the output holds two tagged regions — not exactly
one. -/
theorem embedContents_two_regions_counterexample :
    countMatches (lc "wbs") (lc "Z") twoRegionDoc = 2 ∧
    countOcc (lc "<!-- wbs:embed:start -->") (embedContents (lc "wbs") (lc "Z") twoRegionDoc) = 2 ∧
    countOcc (lc "<!-- wbs:embed:start -->") (embedContents (lc "wbs") (lc "Z") twoRegionDoc) ≠ 1 := by
  refine ⟨by decide, by decide, by decide⟩

/-- C3 amended: the output of `embedContents` always contains the tagged
region holding the new content at least once — each match is overwritten with
that identical block, and when there is no match the block is appended — but
an input with several marker pairs yields several identical regions rather
than exactly one. -/
theorem embedContents_contains_region (tag text data : List Char) :
    embedText tag text <:+: embedContents tag text data := by
  show embedText tag text <:+:
    (if (replaceAllAux tag (embedText tag text) (data.length + 1) true data).2 = 0 then
      data ++ lc "\n\n" ++ embedText tag text
    else (replaceAllAux tag (embedText tag text) (data.length + 1) true data).1)
  cases hfm : findMatch tag true data with
  | none =>
    have : replaceAllAux tag (embedText tag text) (data.length + 1) true data = (data, 0) := by
      simp [replaceAllAux, hfm]
    rw [this]
    simp only [if_pos]
    exact ⟨data ++ lc "\n\n", [], by simp⟩
  | some pr =>
    obtain ⟨pre, rest⟩ := pr
    cases hrec : replaceAllAux tag (embedText tag text) data.length false rest with
    | mk res k =>
      have : replaceAllAux tag (embedText tag text) (data.length + 1) true data =
          (pre ++ embedText tag text ++ res, k + 1) := by
        simp [replaceAllAux, hfm, hrec]
      rw [this]
      simp only [Nat.succ_ne_zero, if_false]
      exact ⟨pre, res, by simp⟩

/-! ## Region merge: repetition is not byte-idempotent (C1) -/

/-- First merge: content "A" under tag "wbs" into a document with no region. -/
def mergeX : List Char := embedContents (lc "wbs") (lc "A") (lc "hello")

/-- Second merge: content "B" into the result of the first. -/
def mergeXY : List Char := embedContents (lc "wbs") (lc "B") mergeX

/-- Third merge: content "B" again, into the result of the second. -/
def mergeXYY : List Char := embedContents (lc "wbs") (lc "B") mergeXY

/-- C1: repeating the second merge is not byte-idempotent.  The pattern's
trailing `(?m:\s*?$)` is lazy, so the match stops at the line end before the
managed block's final newline; the replacement block ends in a newline of its
own, and the merge therefore appends one extra newline on every run after the
first.  The managed region itself stays correct: the result still holds
exactly one "wbs" region whose content is "B". -/
theorem embedContents_repeat_adds_newline :
    mergeXY = lc "hello" ++ lc "\n\n" ++ embedText (lc "wbs") (lc "B") ++ ['\n'] ∧
    mergeXYY = mergeXY ++ ['\n'] ∧
    mergeXYY ≠ mergeXY ∧
    countMatches (lc "wbs") (lc "B") mergeXY = 1 := by
  refine ⟨by decide, by decide, by decide, by decide⟩

/-! ## Kanban grid characterization (C5) -/

/-- Uniform grid shape: `m` rows of `n` cells each. -/
def gridShape (m n : Nat) (rows : List (List (List Char))) : Prop :=
  rows.length = m ∧ ∀ r ∈ rows, r.length = n

theorem gridShape_setCell {m n : Nat} {rows : List (List (List Char))}
    (h : gridShape m n rows) (i j : Nat) (v : List Char) :
    gridShape m n (setCell rows i j v) := by
  obtain ⟨hlen, hrow⟩ := h
  constructor
  · rw [setCell, List.length_set, hlen]
  · intro r hr
    rw [setCell] at hr
    by_cases hi : i < rows.length
    · rcases List.mem_or_eq_of_mem_set hr with h' | h'
      · exact hrow r h'
      · subst h'
        rw [List.length_set]
        refine hrow _ ?_
        rw [List.getD_eq_getElem?_getD, List.getElem?_eq_getElem hi]
        exact List.getElem_mem hi
    · rw [List.set_eq_of_length_le (Nat.le_of_not_lt hi)] at hr
      exact hrow r hr

theorem getD_set_self {α : Type} (l : List α) (i : Nat) (a d : α) (hi : i < l.length) :
    (l.set i a).getD i d = a := by
  rw [List.getD_eq_getElem?_getD, List.getElem?_set, if_pos rfl, if_pos hi, Option.getD_some]

theorem getD_set_ne {α : Type} (l : List α) (i i' : Nat) (a d : α) (h : i ≠ i') :
    (l.set i a).getD i' d = l.getD i' d := by
  rw [List.getD_eq_getElem?_getD, List.getElem?_set, if_neg h, ← List.getD_eq_getElem?_getD]

theorem cell_setCell_same (rows : List (List (List Char))) (i j : Nat) (v : List Char)
    (hi : i < rows.length) (hj : j < (rows.getD i []).length) :
    cell (setCell rows i j v) i j = v := by
  rw [cell, setCell, getD_set_self _ _ _ _ hi, getD_set_self _ _ _ _ hj]

theorem cell_setCell_ne (rows : List (List (List Char))) (i j i' j' : Nat) (v : List Char)
    (h : i ≠ i' ∨ j ≠ j') :
    cell (setCell rows i j v) i' j' = cell rows i' j' := by
  rcases h with h | h
  · rw [cell, cell, setCell, getD_set_ne _ _ _ _ _ h]
  · by_cases hii : i = i'
    · subst hii
      by_cases hlen : i < rows.length
      · rw [cell, cell, setCell, getD_set_self _ _ _ _ hlen, getD_set_ne _ _ _ _ _ h]
      · rw [setCell, List.set_eq_of_length_le (Nat.le_of_not_lt hlen)]
    · rw [cell, cell, setCell, getD_set_ne _ _ _ _ _ hii]

/-- Placeholder card used only as a `getD` default. -/
def anyCard : Card := ⟨[], [], [], []⟩

/-- Placeholder column used only as a `getD` default. -/
def anyCol : BoardColumn := ⟨[], []⟩

/-- The value the column loop leaves at per-column card index `i`, given the
cell's original content `orig`: untouched beyond the card list, untouched for
a completed card under active-only suppression, and the (possibly struck)
title otherwise. -/
def innerCellValue (a : Bool) (cards : List Card) (orig : List Char) (i : Nat) : List Char :=
  if i < cards.length then
    (if (cards.getD i anyCard).IsCompleted && a then orig
     else cellText (cards.getD i anyCard))
  else orig

theorem gridShape_rowLen {m n : Nat} {rows : List (List (List Char))}
    (h : gridShape m n rows) {i : Nat} (hi : i < m) :
    (rows.getD i []).length = n := by
  obtain ⟨hlen, hrow⟩ := h
  have hlt : i < rows.length := by omega
  have hgd : rows.getD i [] = rows[i] := by
    rw [List.getD_eq_getElem?_getD, List.getElem?_eq_getElem hlt, Option.getD_some]
  rw [hgd]
  exact hrow _ (List.getElem_mem hlt)

theorem gridShape_fillCol {m n : Nat} (a : Bool) (j : Nat) (cards : List (Nat × Card)) :
    ∀ rows, gridShape m n rows → gridShape m n (fillCol a j cards rows) := by
  induction cards with
  | nil => exact fun rows h => h
  | cons ic rest ih =>
    intro rows h
    rw [show fillCol a j (ic :: rest) rows =
        fillCol a j rest
          (if ic.2.IsCompleted && a then rows else setCell rows ic.1 j (cellText ic.2))
      from rfl]
    apply ih
    by_cases hs : ic.2.IsCompleted && a
    · rw [if_pos hs]; exact h
    · rw [if_neg hs]; exact gridShape_setCell h _ _ _

theorem fillCol_cell (a : Bool) (j : Nat) (cards : List Card) :
    ∀ (k : Nat) (rows : List (List (List Char))) (m n : Nat), gridShape m n rows →
    j < n → k + cards.length ≤ m →
    ∀ i' j', i' < m → j' < n →
    cell (fillCol a j (List.enumFrom k cards) rows) i' j' =
      (if j' = j ∧ k ≤ i' ∧ i' - k < cards.length then
        (if (cards.getD (i' - k) anyCard).IsCompleted && a then cell rows i' j'
         else cellText (cards.getD (i' - k) anyCard))
      else cell rows i' j') := by
  induction cards with
  | nil =>
    intro k rows m n hshape hj hk i' j' hi' hj'
    have hcond : ¬(j' = j ∧ k ≤ i' ∧ i' - k < ([] : List Card).length) := by
      rintro ⟨-, -, h3⟩
      simp at h3
    rw [if_neg hcond]
    rfl
  | cons c cs ih =>
    intro k rows m n hshape hj hk i' j' hi' hj'
    have hstep : fillCol a j (List.enumFrom k (c :: cs)) rows =
        fillCol a j (List.enumFrom (k + 1) cs)
          (if c.IsCompleted && a then rows else setCell rows k j (cellText c)) := rfl
    set rows' := if c.IsCompleted && a then rows else setCell rows k j (cellText c) with hrows'
    have hshape' : gridShape m n rows' := by
      rw [hrows']
      by_cases hs : c.IsCompleted && a
      · rw [if_pos hs]; exact hshape
      · rw [if_neg hs]; exact gridShape_setCell hshape _ _ _
    have hrl : rows.length = m := hshape.1
    have hlc : (c :: cs).length = cs.length + 1 := by simp
    have hkm : k < m := by omega
    have hk' : k + 1 + cs.length ≤ m := by omega
    rw [hstep, ih (k + 1) rows' m n hshape' hj hk' i' j' hi' hj']
    by_cases hjj : j' = j
    · by_cases hik : i' = k
      · have hnc : ¬(j' = j ∧ k + 1 ≤ i' ∧ i' - (k + 1) < cs.length) := by
          rintro ⟨-, h2, -⟩
          omega
        have hpc : j' = j ∧ k ≤ i' ∧ i' - k < (c :: cs).length := ⟨hjj, by omega, by omega⟩
        rw [if_neg hnc, if_pos hpc]
        have h0 : i' - k = 0 := by omega
        rw [h0, List.getD_cons_zero]
        by_cases hskip : c.IsCompleted && a
        · rw [if_pos hskip]
          rw [hrows', if_pos hskip]
        · rw [if_neg hskip]
          rw [hrows', if_neg hskip, hik, hjj]
          exact cell_setCell_same rows k j (cellText c) (by omega : k < rows.length)
            (by rw [gridShape_rowLen hshape hkm]; omega)
      · have hcell : cell rows' i' j' = cell rows i' j' := by
          rw [hrows']
          by_cases hs : c.IsCompleted && a
          · rw [if_pos hs]
          · rw [if_neg hs]
            exact cell_setCell_ne rows k j i' j' (cellText c) (Or.inl (Ne.symm hik))
        rw [hcell]
        by_cases hcond : k + 1 ≤ i' ∧ i' - (k + 1) < cs.length
        · have hpc1 : j' = j ∧ k + 1 ≤ i' ∧ i' - (k + 1) < cs.length :=
            ⟨hjj, hcond.1, hcond.2⟩
          have hpc2 : j' = j ∧ k ≤ i' ∧ i' - k < (c :: cs).length := ⟨hjj, by omega, by omega⟩
          rw [if_pos hpc1, if_pos hpc2]
          have hidx : i' - k = (i' - (k + 1)) + 1 := by omega
          rw [hidx, List.getD_cons_succ]
        · have hnc1 : ¬(j' = j ∧ k + 1 ≤ i' ∧ i' - (k + 1) < cs.length) := by
            rintro ⟨-, h2, h3⟩
            exact hcond ⟨h2, h3⟩
          have hnc2 : ¬(j' = j ∧ k ≤ i' ∧ i' - k < (c :: cs).length) := by
            rintro ⟨-, h2, h3⟩
            omega
          rw [if_neg hnc1, if_neg hnc2]
    · have hcell : cell rows' i' j' = cell rows i' j' := by
        rw [hrows']
        by_cases hs : c.IsCompleted && a
        · rw [if_pos hs]
        · rw [if_neg hs]
          exact cell_setCell_ne rows k j i' j' (cellText c) (Or.inr (Ne.symm hjj))
      rw [hcell]
      have hnc1 : ¬(j' = j ∧ k + 1 ≤ i' ∧ i' - (k + 1) < cs.length) := by
        rintro ⟨h1, -, -⟩
        exact hjj h1
      have hnc2 : ¬(j' = j ∧ k ≤ i' ∧ i' - k < (c :: cs).length) := by
        rintro ⟨h1, -, -⟩
        exact hjj h1
      rw [if_neg hnc1, if_neg hnc2]

theorem gridShape_fillAll {m n : Nat} (a : Bool) (cols : List (Nat × BoardColumn)) :
    ∀ rows, gridShape m n rows → gridShape m n (fillAll a cols rows) := by
  induction cols with
  | nil => exact fun rows h => h
  | cons jc rest ih =>
    intro rows h
    rw [show fillAll a (jc :: rest) rows =
        fillAll a rest (fillCol a jc.1 jc.2.Cards.enum rows) from rfl]
    exact ih _ (gridShape_fillCol _ _ _ _ h)

theorem fillAll_cell (a : Bool) (cols : List BoardColumn) :
    ∀ (q : Nat) (rows : List (List (List Char))) (m n : Nat), gridShape m n rows →
    q + cols.length ≤ n → (∀ col ∈ cols, col.Cards.length ≤ m) →
    ∀ i' j', i' < m → j' < n →
    cell (fillAll a (List.enumFrom q cols) rows) i' j' =
      (if q ≤ j' ∧ j' - q < cols.length then
        innerCellValue a (cols.getD (j' - q) anyCol).Cards (cell rows i' j') i'
      else cell rows i' j') := by
  induction cols with
  | nil =>
    intro q rows m n hshape hq hcards i' j' hi' hj'
    have hcond : ¬(q ≤ j' ∧ j' - q < ([] : List BoardColumn).length) := by
      rintro ⟨-, h2⟩
      simp at h2
    rw [if_neg hcond]
    rfl
  | cons col rest ih =>
    intro q rows m n hshape hq hcards i' j' hi' hj'
    have hstep : fillAll a (List.enumFrom q (col :: rest)) rows =
        fillAll a (List.enumFrom (q + 1) rest) (fillCol a q col.Cards.enum rows) := rfl
    set rows' := fillCol a q col.Cards.enum rows with hrows'
    have hshape' : gridShape m n rows' := gridShape_fillCol _ _ _ _ hshape
    have hlc : (col :: rest).length = rest.length + 1 := by simp
    have hqn : q < n := by omega
    have hq' : q + 1 + rest.length ≤ n := by omega
    have hcolm : col.Cards.length ≤ m := by
      simpa using hcards col (List.mem_cons_self col rest)
    have hcolcell : ∀ jx, jx < n → cell rows' i' jx =
        (if jx = q ∧ i' < col.Cards.length then
          (if (col.Cards.getD i' anyCard).IsCompleted && a then cell rows i' jx
           else cellText (col.Cards.getD i' anyCard))
        else cell rows i' jx) := by
      intro jx hjx
      have hfc := fillCol_cell a q col.Cards 0 rows m n hshape hqn (by omega) i' jx hi' hjx
      rw [show col.Cards.enum = List.enumFrom 0 col.Cards from rfl] at hrows'
      rw [hrows']
      simp only [Nat.zero_le, true_and, Nat.sub_zero] at hfc
      exact hfc
    rw [hstep, ih (q + 1) rows' m n hshape' hq'
      (fun c hc => hcards c (List.mem_cons_of_mem col hc)) i' j' hi' hj']
    by_cases hjq : j' = q
    · have hnc : ¬(q + 1 ≤ j' ∧ j' - (q + 1) < rest.length) := by
        rintro ⟨h1, -⟩
        omega
      have hpc : q ≤ j' ∧ j' - q < (col :: rest).length := ⟨by omega, by omega⟩
      rw [if_neg hnc, if_pos hpc]
      have h0 : j' - q = 0 := by omega
      rw [h0, List.getD_cons_zero]
      rw [hcolcell j' hj']
      rw [innerCellValue]
      by_cases hil : i' < col.Cards.length
      · have hpc2 : j' = q ∧ i' < col.Cards.length := ⟨hjq, hil⟩
        rw [if_pos hpc2, if_pos hil]
      · have hnc2 : ¬(j' = q ∧ i' < col.Cards.length) := by
          rintro ⟨-, h2⟩
          exact hil h2
        rw [if_neg hnc2, if_neg hil]
    · have hcell : cell rows' i' j' = cell rows i' j' := by
        rw [hcolcell j' hj']
        rw [if_neg (by rintro ⟨h1, -⟩; exact hjq h1)]
      rw [hcell]
      by_cases hcond : q + 1 ≤ j' ∧ j' - (q + 1) < rest.length
      · have hpc1 : q + 1 ≤ j' ∧ j' - (q + 1) < rest.length := hcond
        have hpc2 : q ≤ j' ∧ j' - q < (col :: rest).length := ⟨by omega, by omega⟩
        rw [if_pos hpc1, if_pos hpc2]
        have hidx : j' - q = (j' - (q + 1)) + 1 := by omega
        rw [hidx, List.getD_cons_succ]
      · have hnc1 : ¬(q + 1 ≤ j' ∧ j' - (q + 1) < rest.length) := hcond
        have hnc2 : ¬(q ≤ j' ∧ j' - q < (col :: rest).length) := by
          rintro ⟨h1, h2⟩
          apply hcond
          constructor <;> omega
        rw [if_neg hnc1, if_neg hnc2]

theorem detStep_foldl_ge_init (cols : List BoardColumn) :
    ∀ init : Nat, init ≤ cols.foldl
      (fun maxRows col => if col.Cards.length > maxRows then col.Cards.length else maxRows)
      init := by
  induction cols with
  | nil => exact fun init => Nat.le_refl init
  | cons c cs ih =>
    intro init
    rw [List.foldl_cons]
    refine Nat.le_trans ?_ (ih _)
    by_cases h : c.Cards.length > init
    · rw [if_pos h]; omega
    · rw [if_neg h]

theorem determineRows_ge (cols : List BoardColumn) :
    ∀ col ∈ cols, col.Cards.length ≤ determineRows cols := by
  rw [determineRows]
  generalize 0 = init
  induction cols generalizing init with
  | nil => intro col h; simp at h
  | cons c cs ih =>
    intro col h
    rw [List.foldl_cons]
    rcases List.mem_cons.mp h with h' | h'
    · subst h'
      refine Nat.le_trans ?_ (detStep_foldl_ge_init cs _)
      by_cases hc : col.Cards.length > init
      · rw [if_pos hc]
      · rw [if_neg hc]; omega
    · exact ih _ col h'

theorem detStep_foldl_cases (cols : List BoardColumn) :
    ∀ init : Nat,
      cols.foldl
          (fun maxRows col => if col.Cards.length > maxRows then col.Cards.length else maxRows)
          init = init ∨
        ∃ col ∈ cols, col.Cards.length =
          cols.foldl
            (fun maxRows col =>
              if col.Cards.length > maxRows then col.Cards.length else maxRows)
            init := by
  induction cols with
  | nil => exact fun init => Or.inl rfl
  | cons c cs ih =>
    intro init
    rw [List.foldl_cons]
    by_cases hc : c.Cards.length > init
    · rw [if_pos hc]
      rcases ih c.Cards.length with h | h
      · exact Or.inr ⟨c, List.mem_cons_self c cs, h.symm⟩
      · obtain ⟨col, hm, he⟩ := h
        exact Or.inr ⟨col, List.mem_cons_of_mem c hm, he⟩
    · rw [if_neg hc]
      rcases ih init with h | h
      · exact Or.inl h
      · obtain ⟨col, hm, he⟩ := h
        exact Or.inr ⟨col, List.mem_cons_of_mem c hm, he⟩

theorem determineRows_mem (cols : List BoardColumn) :
    determineRows cols = 0 ∨ ∃ col ∈ cols, col.Cards.length = determineRows cols := by
  rw [determineRows]
  exact detStep_foldl_cases cols 0

theorem gridShape_replicate (m n : Nat) :
    gridShape m n (List.replicate m (List.replicate n ([] : List Char))) :=
  ⟨List.length_replicate m _,
    fun r hr => by rw [List.eq_of_mem_replicate hr, List.length_replicate]⟩

theorem cell_replicate (m n i j : Nat) :
    cell (List.replicate m (List.replicate n ([] : List Char))) i j = [] := by
  rw [cell, List.getD_eq_getElem?_getD (List.replicate m (List.replicate n [])) i [],
    List.getElem?_replicate]
  by_cases hi : i < m
  · rw [if_pos hi, Option.getD_some, List.getD_eq_getElem?_getD, List.getElem?_replicate]
    by_cases hj : j < n
    · rw [if_pos hj, Option.getD_some]
    · rw [if_neg hj]
      rfl
  · rw [if_neg hi]
    rfl

/-- C5: the Kanban grid has `determineRows` rows — the maximum post-filter
card count over all columns — each with one cell per column; every cell is
the value of the inner column loop at the card's original per-column index:
a completed card under active-only suppression leaves its cell empty at its
own index (later cards are not shifted up), and any other card in range
places its (struck-through when completed) title there. -/
theorem kanban_grid_pivot (a : Bool) (filter : List Char) (board : List BoardColumn) :
    (kanbanGrid a filter board).length = determineRows (kanbanCols filter board) ∧
    (∀ r ∈ kanbanGrid a filter board, r.length = (kanbanCols filter board).length) ∧
    (∀ col ∈ kanbanCols filter board,
      col.Cards.length ≤ determineRows (kanbanCols filter board)) ∧
    (determineRows (kanbanCols filter board) = 0 ∨
      ∃ col ∈ kanbanCols filter board,
        col.Cards.length = determineRows (kanbanCols filter board)) ∧
    (∀ i j, i < determineRows (kanbanCols filter board) →
      j < (kanbanCols filter board).length →
      cell (kanbanGrid a filter board) i j =
        innerCellValue a ((kanbanCols filter board).getD j anyCol).Cards [] i) ∧
    (∀ i j, i < determineRows (kanbanCols filter board) →
      j < (kanbanCols filter board).length →
      i < ((kanbanCols filter board).getD j anyCol).Cards.length →
      (((kanbanCols filter board).getD j anyCol).Cards.getD i anyCard).IsCompleted = true →
      a = true →
      cell (kanbanGrid a filter board) i j = []) ∧
    (∀ i j, i < determineRows (kanbanCols filter board) →
      j < (kanbanCols filter board).length →
      i < ((kanbanCols filter board).getD j anyCol).Cards.length →
      ((((kanbanCols filter board).getD j anyCol).Cards.getD i anyCard).IsCompleted && a)
        = false →
      cell (kanbanGrid a filter board) i j =
        cellText (((kanbanCols filter board).getD j anyCol).Cards.getD i anyCard)) := by
  set cols := kanbanCols filter board with hcols
  set m := determineRows cols with hm
  set n := cols.length with hn
  have hgrid : kanbanGrid a filter board =
      fillAll a (List.enumFrom 0 cols) (List.replicate m (List.replicate n [])) := rfl
  have hshape0 : gridShape m n (List.replicate m (List.replicate n [])) :=
    gridShape_replicate m n
  have hshape : gridShape m n (kanbanGrid a filter board) := by
    rw [hgrid]
    exact gridShape_fillAll a _ _ hshape0
  have hmaster : ∀ i j, i < m → j < n →
      cell (kanbanGrid a filter board) i j =
        innerCellValue a (cols.getD j anyCol).Cards [] i := by
    intro i j hi hj
    rw [hgrid, fillAll_cell a cols 0 _ m n hshape0 (by omega) (determineRows_ge cols)
      i j hi hj]
    have hpc : 0 ≤ j ∧ j - 0 < cols.length := ⟨Nat.zero_le j, by omega⟩
    rw [if_pos hpc, Nat.sub_zero, cell_replicate]
  refine ⟨hshape.1, hshape.2, determineRows_ge cols, determineRows_mem cols,
    hmaster, ?_, ?_⟩
  · intro i j hi hj hil hcompl ha
    rw [hmaster i j hi hj, innerCellValue, if_pos hil]
    rw [hcompl, ha]
    rfl
  · intro i j hi hj hil hfalse
    rw [hmaster i j hi hj, innerCellValue, if_pos hil, hfalse]
    rfl

/-- A concrete two-column board: the first column has three cards of which
the middle one is completed, the second has a single card. -/
def wBoard : List BoardColumn :=
  [⟨lc "Todo", [⟨lc "a", [], [], []⟩, ⟨lc "b", lc "Done", [], []⟩, ⟨lc "c", [], [], []⟩]⟩,
   ⟨lc "Review", [⟨lc "d", [], [], []⟩]⟩]

theorem kanban_grid_pivot_witness :
    cell (kanbanGrid true [] wBoard) 1 0 = [] ∧
    cell (kanbanGrid true [] wBoard) 2 0 = lc "c" := by
  have h := kanban_grid_pivot true [] wBoard
  constructor
  · exact h.2.2.2.2.2.1 1 0 (by decide) (by decide) (by decide) (by decide) rfl
  · have hc := h.2.2.2.2.2.2 2 0 (by decide) (by decide) (by decide) (by decide)
    rw [hc]
    decide
